import Mathlib

/-!
Verification of the windowed-pagination engine and derived display helpers of
an infinitely scrollable calendar (source: src/App.tsx, two variants).

Modelling conventions (shallow embedding):

* Calendar dates handled by the window engine are represented by their day
  number (an `Int`, days since a fixed epoch that falls on a Monday).  The
  engine only ever adds and subtracts whole days or weeks and compares dates,
  so this linearisation is faithful.  A luxon `DateTime.startOf ('week')`
  becomes rounding down to a multiple of 7.  The ISO-date string used as the
  week `id` is an injective encoding of the start date, so `id` is modelled
  by the day number itself.
* The display helpers (`getMonthLabel`, month-boundary flags) inspect the
  day-of-month and month of dates, so for those a structured Gregorian date
  record with a day-successor function models the luxon arithmetic
  (namespace `DayModel`).
* React state updates via functional updaters (`setWeeks (prev => ...)`) are
  modelled as pure functions from the previous window to the next; the empty
  window dereference `prev.at (0).startDate` is modelled with `Option`
  (`none` = fatal undefined dereference).  Rendering, scroll compensation and
  intersection-observer wiring are presentation effects outside the data
  model and are not embedded.
-/

namespace WindowModel

/-- A week record as built by `generateWeek`: its ISO-date id (modelled by the
start date's day number, since the ISO encoding is injective), its start date
and its 7 consecutive days. -/
structure Week where
  id : Int
  startDate : Int
  days : List Int
  deriving DecidableEq

/-- Source `generateWeek`: days are the 7 consecutive days from the start
date; the id is the ISO date of the start date. -/
def generateWeek (startDate : Int) : Week :=
  { id := startDate
    startDate := startDate
    days := (List.range 7).map (fun i : Nat => startDate + (i : Int)) }

/-- Variant 1 tunables (src/App.tsx lines 12-13). -/
def WEEKS_TO_LOAD_v1 : Nat := 12

/-- Variant 1 capacity (src/App.tsx line 13). -/
def MAX_WEEKS_IN_MEMORY_v1 : Nat := 32

/-- Variant 2 batch size (src/App.tsx line 180 of variant 2). -/
def WEEKS_TO_LOAD_v2 : Nat := 20

/-- Variant 2 capacity (src/App.tsx line 181 of variant 2). -/
def MAX_WEEKS_IN_MEMORY_v2 : Nat := 60

/-- Luxon `startOf ('week')` on a day number: round down to the Monday that
starts the week (the epoch is a Monday, so multiples of 7 are Mondays). -/
def startOfWeek (d : Int) : Int := d - d % 7

/-- Variant 1 `useState` initializer (lines 35-40): 20 weeks, from 10 weeks
before the anchor's week to 9 weeks after it. -/
def initialWeeks_v1 (anchor : Int) : List Week :=
  (List.range 20).map (fun i : Nat => generateWeek (startOfWeek anchor + 7 * ((i : Int) - 10)))

/-- Variant 2 `useState` initializer (lines 218-223), generalised over the
capacity `C` (the source uses `MAX_WEEKS_IN_MEMORY`): `C` weeks centred on
the anchor's week, offset by `Math.floor (C / 2)`. -/
def initialWeeks_v2 (C : Nat) (anchor : Int) : List Week :=
  (List.range C).map (fun i : Nat => generateWeek (startOfWeek anchor + 7 * ((i : Int) - (C / 2 : Nat))))

/-- The fresh weeks computed by `loadMoreAbove`: `B` weeks immediately
preceding `firstWeek`, oldest first (`firstWeek.minus ({weeks: B - i})`). -/
def newWeeksAbove (firstWeek : Int) (B : Nat) : List Week :=
  (List.range B).map (fun i : Nat => generateWeek (firstWeek - 7 * ((B : Int) - (i : Int))))

/-- The fresh weeks computed by `loadMoreBelow`: `B` weeks immediately
following `lastWeek` (`lastWeek.plus ({weeks: i + 1})`). -/
def newWeeksBelow (lastWeek : Int) (B : Nat) : List Week :=
  (List.range B).map (fun i : Nat => generateWeek (lastWeek + 7 * ((i : Int) + 1)))

/-- Source `loadMoreAbove` state updater (both variants share this logic),
parameterised by capacity `C` and batch size `B`.  `prev.at (0).startDate`
on an empty window is an undefined dereference, modelled as `none`.
`updated.slice (0, C)` keeps the first `C` elements. -/
def loadMoreAbove (C B : Nat) (prev : List Week) : Option (List Week) :=
  match prev with
  | [] => none
  | firstW :: rest =>
    let updated := newWeeksAbove firstW.startDate B ++ (firstW :: rest)
    some (if updated.length > C then updated.take C else updated)

/-- Source `loadMoreBelow` state updater (both variants share this logic).
`prev.at (-1)` is the last element; `updated.slice (-C)` keeps the last `C`
elements, i.e. drops `updated.length - C` from the front. -/
def loadMoreBelow (C B : Nat) (prev : List Week) : Option (List Week) :=
  match prev.getLast? with
  | none => none
  | some lastW =>
    let updated := prev ++ newWeeksBelow lastW.startDate B
    some (if updated.length > C then updated.drop (updated.length - C) else updated)

/-- Contiguity: each adjacent pair of weeks is exactly 7 days apart. -/
def Contig (l : List Week) : Prop :=
  List.Chain' (fun a b => b.startDate = a.startDate + 7) l

/-- Sorted strictly ascending by start date. -/
def SortedAsc (l : List Week) : Prop :=
  List.Pairwise (fun a b => a.startDate < b.startDate) l

/-- All week ids are distinct. -/
def UniqueIds (l : List Week) : Prop :=
  (l.map Week.id).Nodup

/-- Every week of the list is a `generateWeek` of its own start date (the
shape every week in the application has, since all weeks are built by
`generateWeek`). -/
def Generated (l : List Week) : Prop :=
  ∀ wk ∈ l, wk = generateWeek wk.startDate

/-- Normal form for windows: `n` contiguous weeks starting at `s`. -/
def weekRange (s : Int) : Nat → List Week
  | 0 => []
  | n + 1 => generateWeek s :: weekRange (s + 7) n

theorem weekRange_eq_map (s : Int) (n : Nat) :
    weekRange s n = (List.range n).map (fun i : Nat => generateWeek (s + 7 * (i : Int))) := by
  induction n generalizing s with
  | zero => simp [weekRange]
  | succ n ih =>
    rw [List.range_succ_eq_map, List.map_cons, List.map_map]
    have h0 : generateWeek (s + 7 * ((0 : Nat) : Int)) = generateWeek s := by norm_num
    rw [h0, weekRange]
    congr 1
    rw [ih (s + 7)]
    apply List.map_congr_left
    intro i _
    simp only [Function.comp_apply]
    congr 1
    push_cast
    ring

@[simp]
theorem weekRange_length (s : Int) (n : Nat) : (weekRange s n).length = n := by
  induction n generalizing s with
  | zero => rfl
  | succ n ih => simp [weekRange, ih]

theorem weekRange_append (s : Int) (a b : Nat) :
    weekRange s a ++ weekRange (s + 7 * (a : Int)) b = weekRange s (a + b) := by
  induction a generalizing s with
  | zero => simp [weekRange]
  | succ a ih =>
    have h7 : s + 7 * ((a + 1 : Nat) : Int) = (s + 7) + 7 * (a : Int) := by push_cast; ring
    simp only [weekRange, List.cons_append, h7, Nat.succ_add]
    rw [ih (s + 7)]

theorem weekRange_take (s : Int) (n k : Nat) :
    (weekRange s n).take k = weekRange s (min k n) := by
  induction n generalizing s k with
  | zero => simp [weekRange]
  | succ n ih =>
    cases k with
    | zero => simp [weekRange]
    | succ k => simp [weekRange, ih (s + 7) k, Nat.succ_min_succ]

theorem weekRange_drop (s : Int) (n k : Nat) :
    (weekRange s n).drop k = weekRange (s + 7 * (k : Int)) (n - k) := by
  induction n generalizing s k with
  | zero => simp [weekRange]
  | succ n ih =>
    cases k with
    | zero => simp [weekRange]
    | succ k =>
      have h7 : s + 7 * ((k + 1 : Nat) : Int) = (s + 7) + 7 * (k : Int) := by push_cast; ring
      simp only [weekRange, List.drop_succ_cons, h7, Nat.succ_sub_succ]
      exact ih (s + 7) k

theorem mem_weekRange {wk : Week} {s : Int} {n : Nat} :
    wk ∈ weekRange s n ↔ ∃ i < n, wk = generateWeek (s + 7 * (i : Int)) := by
  rw [weekRange_eq_map]
  simp only [List.mem_map, List.mem_range]
  constructor
  · rintro ⟨i, hi, rfl⟩; exact ⟨i, hi, rfl⟩
  · rintro ⟨i, hi, rfl⟩; exact ⟨i, hi, rfl⟩

theorem weekRange_head? (s : Int) (n : Nat) (hn : 1 ≤ n) :
    (weekRange s n).head? = some (generateWeek s) := by
  cases n with
  | zero => omega
  | succ n => rfl

theorem weekRange_getLast? (s : Int) (n : Nat) (hn : 1 ≤ n) :
    (weekRange s n).getLast? = some (generateWeek (s + 7 * ((n : Int) - 1))) := by
  induction n generalizing s with
  | zero => omega
  | succ n ih =>
    cases n with
    | zero => simp [weekRange]
    | succ m =>
      rw [weekRange, weekRange, List.getLast?_cons_cons, ← weekRange]
      rw [ih (s + 7) (by omega)]
      congr 2
      push_cast
      ring

theorem weekRange_contig (s : Int) (n : Nat) : Contig (weekRange s n) := by
  induction n generalizing s with
  | zero => simp [weekRange, Contig]
  | succ n ih =>
    cases n with
    | zero => simp [weekRange, Contig]
    | succ m =>
      refine List.Chain'.cons ?_ (ih (s + 7))
      simp [weekRange, generateWeek]

theorem weekRange_sorted (s : Int) (n : Nat) : SortedAsc (weekRange s n) := by
  induction n generalizing s with
  | zero => simp [weekRange, SortedAsc]
  | succ n ih =>
    refine List.Pairwise.cons ?_ (ih (s + 7))
    intro wk hwk
    rcases mem_weekRange.mp hwk with ⟨i, _, rfl⟩
    simp only [generateWeek]
    omega

theorem weekRange_uniqueIds (s : Int) (n : Nat) : UniqueIds (weekRange s n) := by
  unfold UniqueIds
  rw [weekRange_eq_map, List.map_map]
  have : (Week.id ∘ fun i : Nat => generateWeek (s + 7 * (i : Int))) =
      fun i : Nat => s + 7 * (i : Int) := by
    funext i; rfl
  rw [this]
  refine List.Nodup.map ?_ (List.nodup_range n)
  intro i j hij
  have hij2 : s + 7 * (i : Int) = s + 7 * (j : Int) := hij
  omega

theorem newWeeksAbove_eq (h : Int) (B : Nat) :
    newWeeksAbove h B = weekRange (h - 7 * (B : Int)) B := by
  rw [weekRange_eq_map]
  unfold newWeeksAbove
  apply List.map_congr_left
  intro i _
  congr 1
  ring

theorem newWeeksBelow_eq (l : Int) (B : Nat) :
    newWeeksBelow l B = weekRange (l + 7) B := by
  rw [weekRange_eq_map]
  unfold newWeeksBelow
  apply List.map_congr_left
  intro i _
  congr 1
  ring

theorem loadMoreAbove_weekRange (C B : Nat) (s : Int) (n : Nat) (hn : 1 ≤ n) :
    loadMoreAbove C B (weekRange s n) =
      some (weekRange (s - 7 * (B : Int)) (min (B + n) C)) := by
  obtain ⟨m, rfl⟩ : ∃ m, n = m + 1 := ⟨n - 1, by omega⟩
  have hb : s - 7 * (B : Int) + 7 * (B : Int) = s := by ring
  have hupd : newWeeksAbove s B ++ weekRange s (m + 1)
      = weekRange (s - 7 * (B : Int)) (B + (m + 1)) := by
    rw [newWeeksAbove_eq, ← weekRange_append (s - 7 * (B : Int)) B (m + 1), hb]
  rw [show weekRange s (m + 1) = generateWeek s :: weekRange (s + 7) m from rfl]
  simp only [loadMoreAbove]
  rw [show (generateWeek s).startDate = s from rfl,
    show generateWeek s :: weekRange (s + 7) m = weekRange s (m + 1) from rfl, hupd,
    weekRange_length]
  by_cases hc : B + (m + 1) > C
  · rw [if_pos hc, weekRange_take, Nat.min_comm C (B + (m + 1))]
  · rw [if_neg hc, Nat.min_eq_left (by omega : B + (m + 1) ≤ C)]

theorem loadMoreBelow_weekRange (C B : Nat) (s : Int) (n : Nat) (hn : 1 ≤ n) :
    loadMoreBelow C B (weekRange s n) =
      some (weekRange (s + 7 * ((n + B - min (n + B) C : Nat) : Int)) (min (n + B) C)) := by
  have hlast := weekRange_getLast? s n hn
  have hupd : weekRange s n ++ newWeeksBelow (s + 7 * ((n : Int) - 1)) B
      = weekRange s (n + B) := by
    rw [newWeeksBelow_eq, show s + 7 * ((n : Int) - 1) + 7 = s + 7 * (n : Int) by ring,
      weekRange_append]
  unfold loadMoreBelow
  rw [hlast]
  simp only [hupd]
  rw [show (generateWeek (s + 7 * ((n : Int) - 1))).startDate = s + 7 * ((n : Int) - 1) from rfl,
    hupd, weekRange_length]
  by_cases hc : n + B > C
  · rw [if_pos hc, weekRange_drop]
    have h1 : n + B - (n + B - C) = min (n + B) C := by omega
    have h2 : n + B - C = n + B - min (n + B) C := by omega
    rw [h1, h2]
  · rw [if_neg hc]
    have h1 : min (n + B) C = n + B := by omega
    rw [h1, Nat.sub_self]
    simp

theorem initialWeeks_v2_eq (C : Nat) (anchor : Int) :
    initialWeeks_v2 C anchor
      = weekRange (startOfWeek anchor - 7 * ((C / 2 : Nat) : Int)) C := by
  rw [weekRange_eq_map]
  unfold initialWeeks_v2
  apply List.map_congr_left
  intro i _
  congr 1
  ring

theorem initialWeeks_v1_eq (anchor : Int) :
    initialWeeks_v1 anchor = weekRange (startOfWeek anchor - 70) 20 := by
  rw [weekRange_eq_map]
  unfold initialWeeks_v1
  apply List.map_congr_left
  intro i _
  congr 1
  ring

theorem weekRange_generated (s : Int) (n : Nat) : Generated (weekRange s n) := by
  intro wk hwk
  rcases mem_weekRange.mp hwk with ⟨i, _, rfl⟩
  rfl

/-- Every non-empty contiguous list of generated weeks is a `weekRange`. -/
theorem window_eq_weekRange (w : List Week) :
    Contig w → Generated w → ∀ hne : w ≠ [],
      w = weekRange ((w.head hne).startDate) w.length := by
  induction w with
  | nil => intro _ _ hne; cases hne rfl
  | cons a l ih =>
    intro hc hg hne
    cases l with
    | nil =>
      have ha := hg a (by simp)
      show a :: [] = weekRange a.startDate 1
      rw [show weekRange a.startDate 1 = [generateWeek a.startDate] from rfl, ← ha]
    | cons b t =>
      obtain ⟨hab, hcl⟩ := List.chain'_cons.mp hc
      have hgl : Generated (b :: t) := fun wk hwk => hg wk (List.mem_cons_of_mem a hwk)
      have hbne : (b :: t) ≠ [] := by simp
      have ihb : b :: t = weekRange b.startDate (b :: t).length := ih hcl hgl hbne
      have ha := hg a (List.mem_cons_self a (b :: t))
      show a :: b :: t = weekRange a.startDate ((b :: t).length + 1)
      rw [show weekRange a.startDate ((b :: t).length + 1)
        = generateWeek a.startDate :: weekRange (a.startDate + 7) (b :: t).length from rfl, ← ha]
      congr 1
      rw [hab] at ihb
      exact ihb

/-- One committed extension of the window state: a successful `loadMoreAbove`
or `loadMoreBelow` functional update. -/
inductive ExtStep (C B : Nat) : List Week → List Week → Prop where
  | above {w w' : List Week} (h : loadMoreAbove C B w = some w') : ExtStep C B w w'
  | below {w w' : List Week} (h : loadMoreBelow C B w = some w') : ExtStep C B w w'

/-- Normal form with bounded length: the invariant carried through reachability. -/
def IsRange (C : Nat) (l : List Week) : Prop := ∃ s n, n ≤ C ∧ l = weekRange s n

theorem IsRange.step {C B : Nat} {w w' : List Week}
    (hs : ExtStep C B w w') (hw : IsRange C w) : IsRange C w' := by
  obtain ⟨s, n, hn, rfl⟩ := hw
  cases hs with
  | above h =>
    rcases Nat.eq_zero_or_pos n with h0 | h1
    · subst h0; simp [weekRange, loadMoreAbove] at h
    · rw [loadMoreAbove_weekRange C B s n h1] at h
      exact ⟨_, _, Nat.min_le_right _ _, (Option.some.inj h).symm⟩
  | below h =>
    rcases Nat.eq_zero_or_pos n with h0 | h1
    · subst h0; simp [weekRange, loadMoreBelow] at h
    · rw [loadMoreBelow_weekRange C B s n h1] at h
      exact ⟨_, _, Nat.min_le_right _ _, (Option.some.inj h).symm⟩

theorem IsRange.of_reach {C B : Nat} {w0 w : List Week} (h0 : IsRange C w0)
    (h : Relation.ReflTransGen (ExtStep C B) w0 w) : IsRange C w := by
  induction h with
  | refl => exact h0
  | tail _ hbc ih => exact IsRange.step hbc ih

theorem IsRange.invariants {C : Nat} {w : List Week} (hw : IsRange C w) :
    w.length ≤ C ∧ Contig w ∧ SortedAsc w := by
  obtain ⟨s, n, hn, rfl⟩ := hw
  exact ⟨by simpa using hn, weekRange_contig s n, weekRange_sorted s n⟩

theorem getLast?_eq_some_of_ne_nil : ∀ (l : List Week), l ≠ [] → ∃ x, l.getLast? = some x
  | [a], _ => ⟨a, rfl⟩
  | a :: b :: t, _ => by
    obtain ⟨x, hx⟩ := getLast?_eq_some_of_ne_nil (b :: t) (by simp)
    exact ⟨x, by rw [List.getLast?_cons_cons]; exact hx⟩

theorem head?_take_succ {α : Type} (l : List α) (k : Nat) :
    (l.take (k + 1)).head? = l.head? := by
  cases l <;> rfl

/-- C1: every window reachable from initialization by a finite sequence of
`loadMoreAbove` / `loadMoreBelow` calls has length at most the configured
capacity, adjacent weeks' start dates exactly 7 days apart (contiguous, no
gaps or overlaps), and is sorted strictly ascending by start date.  Stated
for the variant-2 initializer with arbitrary tunables and for the variant-1
initializer with its constants (capacity 32, batch 12). -/
theorem reachable_window_invariants (C B : Nat) (anchor : Int) (w : List Week)
    (h : Relation.ReflTransGen (ExtStep C B) (initialWeeks_v2 C anchor) w ∨
         (C = MAX_WEEKS_IN_MEMORY_v1 ∧ B = WEEKS_TO_LOAD_v1 ∧
          Relation.ReflTransGen (ExtStep C B) (initialWeeks_v1 anchor) w)) :
    w.length ≤ C ∧ Contig w ∧ SortedAsc w := by
  rcases h with h | ⟨rfl, rfl, h⟩
  · exact (IsRange.of_reach ⟨_, _, le_refl C, initialWeeks_v2_eq C anchor⟩ h).invariants
  · exact (IsRange.of_reach ⟨_, _, by decide, initialWeeks_v1_eq anchor⟩ h).invariants

theorem reachable_window_invariants_witness :
    (initialWeeks_v2 4 0).length ≤ 4 ∧ Contig (initialWeeks_v2 4 0) ∧
      SortedAsc (initialWeeks_v2 4 0) :=
  reachable_window_invariants 4 1 0 (initialWeeks_v2 4 0) (Or.inl Relation.ReflTransGen.refl)

/-- C7: under the non-emptiness precondition, both window operations always
succeed (the `prev.at (0)` / `prev.at (-1)` dereferences cannot fail), while
on an empty window both operations hit the undefined dereference, modelled
as the fatal result `none` (no recovery path exists). -/
theorem loadMore_total_on_nonempty (C B : Nat) (w : List Week) (hne : w ≠ []) :
    (loadMoreAbove C B w).isSome ∧ (loadMoreBelow C B w).isSome ∧
    loadMoreAbove C B [] = none ∧ loadMoreBelow C B [] = none := by
  refine ⟨?_, ?_, rfl, rfl⟩
  · cases w with
    | nil => cases hne rfl
    | cons a l => rfl
  · obtain ⟨x, hx⟩ := getLast?_eq_some_of_ne_nil w hne
    unfold loadMoreBelow
    rw [hx]
    rfl

theorem loadMore_total_on_nonempty_witness :
    (loadMoreAbove 4 1 [generateWeek 0]).isSome ∧
    (loadMoreBelow 4 1 [generateWeek 0]).isSome ∧
    loadMoreAbove 4 1 [] = none ∧ loadMoreBelow 4 1 [] = none :=
  loadMore_total_on_nonempty 4 1 [generateWeek 0] (by simp)

/-- C2: on a non-empty window, `loadMoreAbove` prepends exactly `B` fresh
weeks immediately preceding the old first week (a strictly contiguous
extension, so the new first start date is `B` weeks, i.e. `7 * B` days,
earlier than the old one); nothing is dropped while the extended length
stays within the capacity, and when it exceeds the capacity the excess is
dropped from the tail so that exactly `C` weeks remain. -/
theorem loadMoreAbove_prepends_and_truncates (C B : Nat) (prev : List Week)
    (hne : prev ≠ []) (hC : 1 ≤ C) :
    ∃ w' dropped,
      loadMoreAbove C B prev = some w' ∧
      newWeeksAbove ((prev.head hne).startDate) B ++ prev = w' ++ dropped ∧
      (prev.length + B ≤ C → dropped = []) ∧
      w'.head?.map Week.startDate = some ((prev.head hne).startDate - 7 * (B : Int)) ∧
      (C < prev.length + B → w'.length = C) := by
  cases prev with
  | nil => cases hne rfl
  | cons a l =>
    simp only [List.head_cons]
    have hupdlen : (newWeeksAbove a.startDate B ++ (a :: l)).length = B + (l.length + 1) := by
      simp [newWeeksAbove]
    have hhead : (newWeeksAbove a.startDate B ++ (a :: l)).head?.map Week.startDate
        = some (a.startDate - 7 * (B : Int)) := by
      cases B with
      | zero => simp [newWeeksAbove]
      | succ b =>
        rw [newWeeksAbove_eq,
          show weekRange (a.startDate - 7 * ((b + 1 : Nat) : Int)) (b + 1)
            = generateWeek (a.startDate - 7 * ((b + 1 : Nat) : Int))
              :: weekRange (a.startDate - 7 * ((b + 1 : Nat) : Int) + 7) b from rfl]
        rfl
    refine ⟨_, (newWeeksAbove a.startDate B ++ (a :: l)).drop C, rfl, ?_, ?_, ?_, ?_⟩
    · by_cases hc : (newWeeksAbove a.startDate B ++ (a :: l)).length > C
      · rw [if_pos hc, List.take_append_drop]
      · rw [if_neg hc, List.drop_eq_nil_of_le (by omega), List.append_nil]
    · intro hle
      refine List.drop_eq_nil_of_le ?_
      rw [hupdlen]
      simp only [List.length_cons] at hle
      omega
    · by_cases hc : (newWeeksAbove a.startDate B ++ (a :: l)).length > C
      · obtain ⟨c, rfl⟩ : ∃ c, C = c + 1 := ⟨C - 1, by omega⟩
        rw [if_pos hc, head?_take_succ]
        exact hhead
      · rw [if_neg hc]
        exact hhead
    · intro hlt
      have hc : (newWeeksAbove a.startDate B ++ (a :: l)).length > C := by
        rw [hupdlen]
        simp only [List.length_cons] at hlt
        omega
      rw [if_pos hc, List.length_take]
      omega

theorem loadMoreAbove_prepends_and_truncates_witness :
    ∃ w' dropped,
      loadMoreAbove 2 1 [generateWeek 0] = some w' ∧
      newWeeksAbove (([generateWeek (0 : Int)].head (by simp)).startDate) 1
          ++ [generateWeek 0] = w' ++ dropped ∧
      ([generateWeek (0 : Int)].length + 1 ≤ 2 → dropped = []) ∧
      w'.head?.map Week.startDate
        = some (([generateWeek (0 : Int)].head (by simp)).startDate - 7 * ((1 : Nat) : Int)) ∧
      (2 < [generateWeek (0 : Int)].length + 1 → w'.length = 2) :=
  loadMoreAbove_prepends_and_truncates 2 1 [generateWeek 0] (by simp) (by omega)

/-- C3 (amended): with capacity 60 and batch size 20, a single
`loadMoreAbove` on a freshly initialized variant-2 window yields a window
whose new first start date is 20 weeks (140 days) earlier than the old
first start date, whose length stays 60, and from whose extended form
exactly 20 weeks (80 - 60, not 30) are dropped from the tail. -/
theorem init_loadMoreAbove_scenario (anchor : Int) :
    ∃ w' dropped,
      loadMoreAbove MAX_WEEKS_IN_MEMORY_v2 WEEKS_TO_LOAD_v2
          (initialWeeks_v2 MAX_WEEKS_IN_MEMORY_v2 anchor) = some w' ∧
      w'.length = MAX_WEEKS_IN_MEMORY_v2 ∧
      (initialWeeks_v2 MAX_WEEKS_IN_MEMORY_v2 anchor).head?.map Week.startDate
        = some (startOfWeek anchor - 210) ∧
      w'.head?.map Week.startDate = some (startOfWeek anchor - 210 - 7 * 20) ∧
      dropped.length = 20 ∧
      newWeeksAbove (startOfWeek anchor - 210) WEEKS_TO_LOAD_v2
          ++ initialWeeks_v2 MAX_WEEKS_IN_MEMORY_v2 anchor = w' ++ dropped := by
  simp only [MAX_WEEKS_IN_MEMORY_v2, WEEKS_TO_LOAD_v2]
  have hinit : initialWeeks_v2 60 anchor = weekRange (startOfWeek anchor - 210) 60 := by
    rw [initialWeeks_v2_eq]
    norm_num
  refine ⟨weekRange (startOfWeek anchor - 350) 60, weekRange (startOfWeek anchor + 70) 20,
    ?_, by simp, ?_, ?_, by simp, ?_⟩
  · rw [hinit, loadMoreAbove_weekRange 60 20 _ 60 (by norm_num),
      show startOfWeek anchor - 210 - 7 * ((20 : Nat) : Int) = startOfWeek anchor - 350 by
        push_cast; ring]
    rfl
  · rw [hinit, weekRange_head? _ _ (by norm_num)]
    rfl
  · rw [weekRange_head? _ _ (by norm_num)]
    show some (startOfWeek anchor - 350) = _
    congr 1
    omega
  · rw [newWeeksAbove_eq, hinit]
    have e1 : startOfWeek anchor - 210 - 7 * ((20 : Nat) : Int)
        = startOfWeek anchor - 350 := by push_cast; ring
    rw [e1]
    have e2 : startOfWeek anchor - 210
        = (startOfWeek anchor - 350) + 7 * ((20 : Nat) : Int) := by push_cast; ring
    rw [e2, weekRange_append]
    have e3 : startOfWeek anchor + 70
        = (startOfWeek anchor - 350) + 7 * ((60 : Nat) : Int) := by push_cast; ring
    rw [e3, weekRange_append]

/-- C3 counterexample: at anchor 0, the extended list (fresh batch plus old
window, 80 weeks) minus the truncated result (60 weeks) shows exactly 20
weeks were trimmed from the tail, refuting the claimed 30. -/
theorem init_loadMoreAbove_trim_count :
    ((newWeeksAbove (-210) WEEKS_TO_LOAD_v2
        ++ initialWeeks_v2 MAX_WEEKS_IN_MEMORY_v2 0).length
      - ((loadMoreAbove MAX_WEEKS_IN_MEMORY_v2 WEEKS_TO_LOAD_v2
            (initialWeeks_v2 MAX_WEEKS_IN_MEMORY_v2 0)).getD []).length) = 20
    ∧ (20 : Nat) ≠ 30 := by
  constructor
  · decide
  · decide

/-- The initialization guarantees apart from the week count: contiguity,
ascending order, unique ids, and containing the week of the anchor date. -/
def InitOk (anchor : Int) (l : List Week) : Prop :=
  Contig l ∧ SortedAsc l ∧ UniqueIds l ∧
  ∃ wk ∈ l, wk.startDate = startOfWeek anchor ∧
    wk.startDate ≤ anchor ∧ anchor < wk.startDate + 7

/-- C4 (amended): after initialization the window is contiguous, sorted
ascending, unique by id, and contains the week containing the anchor date;
the initializers are pure functions of the anchor and the tunables, hence
deterministic.  The variant-2 initializer builds exactly capacity-many
weeks, but the variant-1 initializer builds 20 weeks, fewer than its
configured capacity of 32. -/
theorem initialize_spec (C : Nat) (anchor : Int) (hC : 1 ≤ C) :
    (initialWeeks_v2 C anchor).length = C ∧ InitOk anchor (initialWeeks_v2 C anchor) ∧
    (initialWeeks_v1 anchor).length = 20 ∧ InitOk anchor (initialWeeks_v1 anchor) := by
  have hweek : startOfWeek anchor ≤ anchor ∧ anchor < startOfWeek anchor + 7 := by
    unfold startOfWeek
    omega
  refine ⟨by rw [initialWeeks_v2_eq]; simp, ?_, by rw [initialWeeks_v1_eq]; simp, ?_⟩
  · rw [initialWeeks_v2_eq]
    refine ⟨weekRange_contig _ _, weekRange_sorted _ _, weekRange_uniqueIds _ _,
      generateWeek (startOfWeek anchor), ?_, rfl, hweek.1, hweek.2⟩
    refine mem_weekRange.mpr ⟨C / 2, by omega, ?_⟩
    congr 1
    ring
  · rw [initialWeeks_v1_eq]
    refine ⟨weekRange_contig _ _, weekRange_sorted _ _, weekRange_uniqueIds _ _,
      generateWeek (startOfWeek anchor), ?_, rfl, hweek.1, hweek.2⟩
    refine mem_weekRange.mpr ⟨10, by omega, ?_⟩
    congr 1
    norm_num

theorem initialize_spec_witness :
    (initialWeeks_v2 2 5).length = 2 ∧ InitOk 5 (initialWeeks_v2 2 5) ∧
    (initialWeeks_v1 5).length = 20 ∧ InitOk 5 (initialWeeks_v1 5) :=
  initialize_spec 2 5 (by omega)

/-- C4 counterexample: the variant-1 initializer builds 20 weeks, not
`MAX_WEEKS_IN_MEMORY_v1 = 32` weeks, so a freshly initialized variant-1
window does not have exactly capacity-many weeks. -/
theorem initialize_v1_not_capacity :
    (initialWeeks_v1 0).length ≠ MAX_WEEKS_IN_MEMORY_v1 := by
  decide

/-- C5: `loadMoreBelow` (extendForward) followed by `loadMoreAbove`
(extendBackward) with the same batch size.  Absent truncation (window
length plus two batches within capacity) the composite surrounds the
original window with `B` fresh weeks on each side, so the original date
range stays covered with zero net shift.  With truncation at the capacity
boundary each step is non-invertible, yet a window already at exactly
capacity is reproduced by the composite exactly (in particular the set of
week start dates is the original one). -/
theorem forward_backward_roundtrip (C B : Nat) (w : List Week) (hne : w ≠ [])
    (hc : Contig w) (hg : Generated w) :
    ∃ first last, w.head? = some first ∧ w.getLast? = some last ∧
      (w.length + 2 * B ≤ C →
        (loadMoreBelow C B w).bind (loadMoreAbove C B)
          = some (newWeeksAbove first.startDate B ++ w
              ++ newWeeksBelow last.startDate B)) ∧
      (w.length = C →
        (loadMoreBelow C B w).bind (loadMoreAbove C B) = some w) := by
  obtain ⟨s, n, hn, hw⟩ : ∃ s n, 1 ≤ n ∧ w = weekRange s n := by
    refine ⟨(w.head hne).startDate, w.length, ?_, window_eq_weekRange w hc hg hne⟩
    cases w with
    | nil => cases hne rfl
    | cons a l => simp
  subst hw
  refine ⟨generateWeek s, generateWeek (s + 7 * ((n : Int) - 1)),
    weekRange_head? s n hn, weekRange_getLast? s n hn, ?_, ?_⟩
  · intro hT
    rw [weekRange_length] at hT
    rw [loadMoreBelow_weekRange C B s n hn,
      show min (n + B) C = n + B by omega, Nat.sub_self,
      Nat.cast_zero, mul_zero, add_zero, Option.some_bind',
      loadMoreAbove_weekRange C B s (n + B) (by omega),
      show min (B + (n + B)) C = B + (n + B) by omega,
      newWeeksAbove_eq, newWeeksBelow_eq,
      show (generateWeek s).startDate = s from rfl,
      show (generateWeek (s + 7 * ((n : Int) - 1))).startDate
        = s + 7 * ((n : Int) - 1) from rfl,
      show weekRange s n = weekRange ((s - 7 * (B : Int)) + 7 * ((B : Nat) : Int)) n by
        congr 1; ring,
      weekRange_append,
      show s + 7 * ((n : Int) - 1) + 7
        = (s - 7 * (B : Int)) + 7 * ((B + n : Nat) : Int) by push_cast; ring,
      weekRange_append,
      show B + n + B = B + (n + B) by omega]
  · intro hlenC
    rw [weekRange_length] at hlenC
    subst hlenC
    rw [loadMoreBelow_weekRange n B s n hn,
      show min (n + B) n = n by omega,
      show n + B - n = B by omega,
      Option.some_bind', loadMoreAbove_weekRange n B (s + 7 * ((B : Nat) : Int)) n hn,
      show s + 7 * ((B : Nat) : Int) - 7 * ((B : Nat) : Int) = s by ring,
      show min (B + n) n = n by omega]

theorem forward_backward_roundtrip_witness :
    ∃ first last, (weekRange 0 2).head? = some first ∧
      (weekRange 0 2).getLast? = some last ∧
      ((weekRange 0 2).length + 2 * 1 ≤ 2 →
        (loadMoreBelow 2 1 (weekRange 0 2)).bind (loadMoreAbove 2 1)
          = some (newWeeksAbove first.startDate 1 ++ weekRange 0 2
              ++ newWeeksBelow last.startDate 1)) ∧
      ((weekRange 0 2).length = 2 →
        (loadMoreBelow 2 1 (weekRange 0 2)).bind (loadMoreAbove 2 1)
          = some (weekRange 0 2)) :=
  forward_backward_roundtrip 2 1 (weekRange 0 2) (by decide)
    (weekRange_contig 0 2) (weekRange_generated 0 2)

/-- C6: two `loadMoreBelow` calls composed functionally, the second reading
the first call's committed result (the semantics of the functional
`setWeeks` updater under rapid double-trigger), produce a window with
pairwise distinct week ids and no gap between adjacent weeks. -/
theorem double_loadMoreBelow_no_dup_no_gap (C B : Nat) (w : List Week) (hne : w ≠ [])
    (hc : Contig w) (hg : Generated w) (hCpos : 1 ≤ C) :
    ∃ w', (loadMoreBelow C B w).bind (loadMoreBelow C B) = some w' ∧
      UniqueIds w' ∧ Contig w' := by
  obtain ⟨s, n, hn, hw⟩ : ∃ s n, 1 ≤ n ∧ w = weekRange s n := by
    refine ⟨(w.head hne).startDate, w.length, ?_, window_eq_weekRange w hc hg hne⟩
    cases w with
    | nil => cases hne rfl
    | cons a l => simp
  subst hw
  rw [loadMoreBelow_weekRange C B s n hn, Option.some_bind',
    loadMoreBelow_weekRange C B _ (min (n + B) C) (by omega)]
  exact ⟨_, rfl, weekRange_uniqueIds _ _, weekRange_contig _ _⟩

theorem double_loadMoreBelow_no_dup_no_gap_witness :
    ∃ w', (loadMoreBelow 2 1 (weekRange 0 1)).bind (loadMoreBelow 2 1) = some w' ∧
      UniqueIds w' ∧ Contig w' :=
  double_loadMoreBelow_no_dup_no_gap 2 1 (weekRange 0 1) (by decide)
    (weekRange_contig 0 1) (weekRange_generated 0 1) (by omega)

end WindowModel

namespace DayModel

/-- A calendar date as luxon exposes it to this code: year, month (1-12) and
day-of-month.  The repository consumes an external date library for calendar
structure (spec section 6), so the Gregorian rules below model that library
at the day granularity the display helpers use. -/
structure Date where
  year : Int
  month : Nat
  day : Nat
  deriving DecidableEq

/-- Gregorian leap-year rule. -/
def isLeapYear (y : Int) : Bool :=
  (y % 4 == 0 && y % 100 != 0) || y % 400 == 0

/-- Number of days in a month of a given year (Gregorian). -/
def daysInMonth (y : Int) (m : Nat) : Nat :=
  if m = 2 then (if isLeapYear y then 29 else 28)
  else if m = 4 ∨ m = 6 ∨ m = 9 ∨ m = 11 then 30
  else 31

/-- The next calendar day: luxon `plus ({days: 1})` at day granularity. -/
def nextDay (d : Date) : Date :=
  if d.day < daysInMonth d.year d.month then ⟨d.year, d.month, d.day + 1⟩
  else if d.month < 12 then ⟨d.year, d.month + 1, 1⟩
  else ⟨d.year + 1, 1, 1⟩

/-- luxon `plus ({days: k})` for a non-negative day count. -/
def plusDays (k : Nat) (d : Date) : Date := nextDay^[k] d

/-- The week record of the source, with structured dates (the ISO id string
is the injective encoding of the start date, modelled by the date itself). -/
structure Week where
  id : Date
  startDate : Date
  days : List Date

/-- Source `generateWeek` over structured dates: the 7 consecutive days from
the start date. -/
def generateWeek (startDate : Date) : Week :=
  { id := startDate
    startDate := startDate
    days := (List.range 7).map (fun i : Nat => plusDays i startDate) }

/-- English month names as produced by luxon month formatting. -/
def monthName : Nat → String
  | 1 => "January"
  | 2 => "February"
  | 3 => "March"
  | 4 => "April"
  | 5 => "May"
  | 6 => "June"
  | 7 => "July"
  | 8 => "August"
  | 9 => "September"
  | 10 => "October"
  | 11 => "November"
  | 12 => "December"
  | _ => ""

/-- luxon `toFormat ('MMMM yyyy')`: full month name and year. -/
def formatMonthYear (d : Date) : String :=
  monthName d.month ++ " " ++ toString d.year

/-- Source `getMonthLabel`: the formatted label of the first day with
day-of-month 1 found in the week, or none when no such day exists. -/
def getMonthLabel (week : Week) : Option String :=
  (week.days.find? (fun day => day.day == 1)).map formatMonthYear

/-- Source `hasMonthBoundaryAfter` (variant 2, lines 332-333): between a day
cell and the following day cell of the same week row, when one exists. -/
def hasMonthBoundaryAfter (day : Date) (nextD : Option Date) : Bool :=
  match nextD with
  | none => false
  | some nd => day.month != nd.month

/-- Source `hasMonthBoundaryBetweenWeeks` (variant 2, lines 202-215): false
when there is no next week; otherwise true when some weekday position i in
0..6 has a different month in the next week. -/
def hasMonthBoundaryBetweenWeeks (currentWeek : Week) (nextWeek : Option Week) : Bool :=
  match nextWeek with
  | none => false
  | some nw =>
    (List.range 7).any (fun i =>
      (currentWeek.days.getD i ⟨0, 1, 1⟩).month != (nw.days.getD i ⟨0, 1, 1⟩).month)

theorem daysInMonth_ge (y : Int) (m : Nat) : 28 ≤ daysInMonth y m := by
  unfold daysInMonth
  split
  · split <;> omega
  · split <;> omega

/-- Stepping within the current month increments only the day-of-month. -/
theorem plusDays_within_month (d : Date) (k : Nat)
    (h : d.day + k ≤ daysInMonth d.year d.month) :
    (plusDays k d).year = d.year ∧ (plusDays k d).month = d.month ∧
      (plusDays k d).day = d.day + k := by
  induction k with
  | zero => exact ⟨rfl, rfl, rfl⟩
  | succ k ih =>
    obtain ⟨hy, hm, hd⟩ := ih (by omega)
    have hstep : plusDays (k + 1) d = nextDay (plusDays k d) :=
      Function.iterate_succ_apply' nextDay k d
    have hlt : (plusDays k d).day < daysInMonth (plusDays k d).year (plusDays k d).month := by
      rw [hy, hm, hd]
      omega
    rw [hstep]
    unfold nextDay
    rw [if_pos hlt]
    refine ⟨hy, hm, ?_⟩
    show (plusDays k d).day + 1 = d.day + (k + 1)
    omega

/-- After a day-of-month 1 within the first 6 following days no second
day-of-month 1 can occur, because every month has at least 28 days. -/
theorem day_one_unique_aux (s : Date) {i j : Nat} (hij : i < j) (hj : j ≤ 6)
    (hi1 : (plusDays i s).day = 1) : (plusDays j s).day ≠ 1 := by
  have hcomp : plusDays j s = plusDays (j - i) (plusDays i s) := by
    unfold plusDays
    rw [← Function.iterate_add_apply]
    congr 1
    omega
  have hbig := daysInMonth_ge (plusDays i s).year (plusDays i s).month
  have hrun := plusDays_within_month (plusDays i s) (j - i) (by rw [hi1]; omega)
  rw [hcomp, hrun.2.2, hi1]
  omega

theorem mem_generateWeek_days {d s : Date} :
    d ∈ (generateWeek s).days ↔ ∃ i < 7, d = plusDays i s := by
  simp only [generateWeek, List.mem_map, List.mem_range]
  constructor
  · rintro ⟨i, hi, rfl⟩
    exact ⟨i, hi, rfl⟩
  · rintro ⟨i, hi, rfl⟩
    exact ⟨i, hi, rfl⟩

/-- C8: a week of 7 consecutive days contains at most one date with
day-of-month 1; when such a date is present the month label is exactly that
date's formatted month and year, and when absent the label is none. -/
theorem getMonthLabel_spec (s : Date) :
    (∀ i j, i < 7 → j < 7 →
      (plusDays i s).day = 1 → (plusDays j s).day = 1 → i = j) ∧
    (∀ d ∈ (generateWeek s).days, d.day = 1 →
      getMonthLabel (generateWeek s) = some (formatMonthYear d)) ∧
    ((∀ d ∈ (generateWeek s).days, d.day ≠ 1) →
      getMonthLabel (generateWeek s) = none) := by
  have huniq : ∀ i j, i < 7 → j < 7 →
      (plusDays i s).day = 1 → (plusDays j s).day = 1 → i = j := by
    intro i j hi hj h1 h2
    rcases Nat.lt_trichotomy i j with h | h | h
    · exact absurd h2 (day_one_unique_aux s h (by omega) h1)
    · exact h
    · exact absurd h1 (day_one_unique_aux s h (by omega) h2)
  refine ⟨huniq, ?_, ?_⟩
  · intro d hd hd1
    cases hfind : (generateWeek s).days.find? (fun day => day.day == 1) with
    | none =>
      rw [List.find?_eq_none] at hfind
      exact absurd (by simpa using hd1) (hfind d hd)
    | some y =>
      have hy1 : y.day = 1 := by simpa using List.find?_some hfind
      have hymem : y ∈ (generateWeek s).days := List.mem_of_find?_eq_some hfind
      obtain ⟨i, hi, rfl⟩ := mem_generateWeek_days.mp hymem
      obtain ⟨j, hj, rfl⟩ := mem_generateWeek_days.mp hd
      have hij := huniq i j hi hj hy1 hd1
      subst hij
      unfold getMonthLabel
      rw [hfind]
      rfl
  · intro hnone
    have hfind : (generateWeek s).days.find? (fun day => day.day == 1) = none := by
      rw [List.find?_eq_none]
      intro x hx
      simpa using hnone x hx
    unfold getMonthLabel
    rw [hfind]
    rfl

theorem getMonthLabel_spec_witness :
    getMonthLabel (generateWeek ⟨2024, 1, 29⟩) = some (formatMonthYear ⟨2024, 2, 1⟩) :=
  (getMonthLabel_spec ⟨2024, 1, 29⟩).2.1 ⟨2024, 2, 1⟩ (by decide) (by decide)

/-- C9: for two chronologically adjacent days the month-boundary flag is
true exactly when their month values differ. -/
theorem hasMonthBoundaryAfter_iff (d : Date) :
    hasMonthBoundaryAfter d (some (nextDay d)) = true ↔ d.month ≠ (nextDay d).month := by
  unfold hasMonthBoundaryAfter
  simp [bne_iff_ne]

theorem getD_generateWeek_days (s : Date) (i : Nat) (hi : i < 7) :
    (generateWeek s).days.getD i ⟨0, 1, 1⟩ = plusDays i s := by
  unfold generateWeek
  rw [List.getD_eq_getElem?_getD, List.getElem?_map, List.getElem?_range hi]
  rfl

/-- C10: the between-weeks month-boundary indicator is false when there is
no next week, and for two contiguous weeks (the next week starting 7 days
later) it is true exactly when some weekday position i in 0..6 changes its
month value from one week to the next. -/
theorem hasMonthBoundaryBetweenWeeks_spec :
    (∀ w : Week, hasMonthBoundaryBetweenWeeks w none = false) ∧
    (∀ s : Date,
      (hasMonthBoundaryBetweenWeeks (generateWeek s)
          (some (generateWeek (plusDays 7 s))) = true
        ↔ ∃ i < 7, (plusDays i s).month ≠ (plusDays i (plusDays 7 s)).month)) := by
  constructor
  · intro w
    rfl
  · intro s
    unfold hasMonthBoundaryBetweenWeeks
    rw [List.any_eq_true]
    constructor
    · rintro ⟨i, hi, hne⟩
      rw [List.mem_range] at hi
      refine ⟨i, hi, ?_⟩
      rw [getD_generateWeek_days s i hi, getD_generateWeek_days _ i hi] at hne
      simpa [bne_iff_ne] using hne
    · rintro ⟨i, hi, hne⟩
      refine ⟨i, List.mem_range.mpr hi, ?_⟩
      rw [getD_generateWeek_days s i hi, getD_generateWeek_days _ i hi]
      simpa [bne_iff_ne] using hne

end DayModel
